import Mathlib

/-!
# Verification of the `sloc` line counter

A shallow embedding of the two core functions of the `sloc` utility
(`main.go`): the line classifier `sloc` (block-comment stripping followed
by significant-line counting) and the directory walker `walk` (traversal
with ignore-list pruning and per-file accumulation), together with proofs
of the specified properties.

Modelling conventions:
* file contents are `List Char` (Go strings viewed as rune sequences);
* the filesystem is an inductive tree `FSEntry`; a file whose content is
  `Option.none` models a file that exists but cannot be read;
* Go's regexp-based removal `QuoteMeta(start) ++ "[\x5cs\x5cS]*?" ++ QuoteMeta(end)`
  (leftmost, non-greedy, literal delimiters) is embedded as the recursive
  `stripBlocks`, driven by `splitFirst` (first-occurrence split);
* presentation-only data (icons, ANSI colors, table rendering) is out of
  scope and omitted from `langInfo`.
-/

namespace Sloc

/-- Go's `unicode.IsSpace`, the predicate underlying `strings.TrimSpace`:
true on '\t', '\n', '\v', '\f', '\r', ' ', U+0085, U+00A0 and the other
Unicode white-space code points. -/
def isSpaceGo (c : Char) : Bool :=
  let n := c.toNat
  n == 9 || n == 10 || n == 11 || n == 12 || n == 13 || n == 32 ||
  n == 0x85 || n == 0xA0 || n == 0x1680 ||
  (0x2000 ≤ n && n ≤ 0x200A) ||
  n == 0x2028 || n == 0x2029 || n == 0x202F || n == 0x205F || n == 0x3000

/-- Go's `strings.TrimSpace`: drop white space from both ends. -/
def trimSpace (l : List Char) : List Char :=
  ((l.dropWhile isSpaceGo).reverse.dropWhile isSpaceGo).reverse

/-- Go's `strings.HasPrefix s pre`: `pre` is a prefix of `s`. -/
def hasPrefixL : List Char → List Char → Bool
  | _, [] => true
  | [], _ :: _ => false
  | c :: cs, d :: ds => c == d && hasPrefixL cs ds

/-- Go's `strings.Split` with separator `"\n"` specialised to one
character: split into the (always non-empty) list of pieces between
occurrences of `sep`. -/
def splitOnChar (sep : Char) : List Char → List (List Char)
  | [] => [[]]
  | c :: rest =>
    if c = sep then [] :: splitOnChar sep rest
    else
      match splitOnChar sep rest with
      | [] => [[c]]
      | h :: t => (c :: h) :: t

/-- Split `s` at the first occurrence of `needle`:
`splitFirst needle s = some (b, a)` when `s = b ++ needle ++ a` and `b` is
shortest possible; `none` when `needle` does not occur in `s`. -/
def splitFirst (needle : List Char) : List Char → Option (List Char × List Char)
  | [] => if needle.isEmpty then Option.some ([], []) else Option.none
  | c :: rest =>
    if hasPrefixL (c :: rest) needle then
      Option.some ([], (c :: rest).drop needle.length)
    else
      match splitFirst needle rest with
      | Option.some (b, a) => Option.some (c :: b, a)
      | Option.none => Option.none

/-- One regexp replacement pass of
`regexp.MustCompile(QuoteMeta(start) ++ lazyAny ++ QuoteMeta(end)).ReplaceAllString(content, "")`:
repeatedly remove the segment from the leftmost occurrence of `st` up to
the nearest following occurrence of `en`, continuing after the removed
segment (non-overlapping).  The `fuel` argument only bounds the recursion
depth; every block removed shortens the text, so `length + 1` fuel (as
supplied by `stripBlocks`) is never exhausted. -/
def stripBlocksAux : Nat → List Char → List Char → List Char → List Char
  | 0, _, _, s => s
  | Nat.succ fuel, st, en, s =>
    match splitFirst st s with
    | Option.none => s
    | Option.some (before, rest) =>
      match splitFirst en rest with
      | Option.none => s
      | Option.some (_, after) => before ++ stripBlocksAux fuel st en after

/-- Removal of all block comments, as performed by the regexp replacement
in `sloc` (main.go lines 89-93). -/
def stripBlocks (st en s : List Char) : List Char :=
  stripBlocksAux (s.length + 1) st en s

/-- The comment-syntax descriptor of a supported language (`langInfo` in
main.go; the presentation fields `icon` and `color` are omitted). -/
structure langInfo where
  inline : String
  start : String
  endStr : String
deriving DecidableEq, Repr

/-- The static `supported` table of main.go, keyed by file extension. -/
def supported : List (String × langInfo) :=
  [ (".c", ⟨"//", "/*", "*/"⟩),
    (".css", ⟨"", "/*", "*/"⟩),
    (".go", ⟨"//", "/*", "*/"⟩),
    (".h", ⟨"//", "/*", "*/"⟩),
    (".html", ⟨"", "<!--", "-->"⟩),
    (".js", ⟨"//", "/*", "*/"⟩),
    (".jsx", ⟨"//", "/*", "*/"⟩),
    (".lua", ⟨"--", "--[[", "]]"⟩),
    (".py", ⟨"#", "\"\"\"", "\"\"\""⟩),
    (".scm", ⟨";", "", ""⟩),
    (".scss", ⟨"//", "/*", "*/"⟩),
    (".sh", ⟨"#", "", ""⟩),
    (".tex", ⟨"%", "", ""⟩),
    (".ts", ⟨"//", "/*", "*/"⟩),
    (".tsx", ⟨"//", "/*", "*/"⟩),
    (".vim", ⟨"\"", "", ""⟩),
    (".zsh", ⟨"#", "", ""⟩) ]

/-- Go's `filepath.Ext`: the suffix of `path` beginning at the final dot
in the final path element; empty when that element has no dot. -/
def ext (path : String) : String :=
  let r := path.data.reverse
  let tail := r.takeWhile (fun c => c ≠ '.' && c ≠ '/')
  match r.drop tail.length with
  | '.' :: _ => String.mk ('.' :: tail.reverse)
  | _ => ""

/-- The per-line condition of the counting loop in `sloc` (main.go line
102): the trimmed line is non-empty, and either the language has no
inline-comment marker or the trimmed line does not start with it. -/
def significantL (inl : List Char) (line : List Char) : Bool :=
  let t := trimSpace line
  !t.isEmpty && (inl.isEmpty || !(hasPrefixL t inl))

/-- The counting loop of `sloc` (main.go lines 97-105). -/
def slocLines (inl : List Char) (lines : List (List Char)) : Nat :=
  lines.foldl (fun total line => if significantL inl line then total + 1 else total) 0

/-- The block-stripping phase of `sloc` (main.go lines 86-93): strip only
when both delimiters are non-empty. -/
def stripPhase (info : langInfo) (content : List Char) : List Char :=
  if info.start ≠ "" ∧ info.endStr ≠ "" then
    stripBlocks info.start.data info.endStr.data content
  else content

/-- The pure body of `sloc` once the file content is in hand: strip block
comments, split on newline, count significant lines. -/
def slocContent (info : langInfo) (content : List Char) : Nat :=
  slocLines info.inline.data (splitOnChar '\n' (stripPhase info content))

/-- The failure modes of `sloc`: `errUnsupportedFiletype`, and a failed
`os.ReadFile`. -/
inductive SlocError where
  | unsupportedFiletype
  | readError
deriving DecidableEq, Repr

/-- `sloc` of main.go (lines 73-108).  The file system read is modelled
by the `content` argument: `Option.none` stands for a read failure.  The
extension lookup happens before the read, exactly as in the source. -/
def sloc (path : String) (content : Option String) : Except SlocError Nat :=
  match List.lookup (ext path) supported with
  | Option.none => Except.error SlocError.unsupportedFiletype
  | Option.some commStr =>
    match content with
    | Option.none => Except.error SlocError.readError
    | Option.some bytes => Except.ok (slocContent commStr bytes.data)

/-- The built-in `ignore` list of main.go (lines 16-21).  The walker takes
the (possibly CLI-extended) list as an explicit parameter. -/
def ignore : List String := ["node_modules", "coverage", ".git", ".next"]

/-- A filesystem tree.  A file's `content` is `Option.none` when the file
exists but reading it fails (`os.ReadFile` error). -/
inductive FSEntry where
  | file (name : String) (content : Option String)
  | dir (name : String) (entries : List FSEntry)
deriving Repr

/-- The base name of an entry (`filepath.Base` of its path). -/
def FSEntry.name : FSEntry → String
  | FSEntry.file n _ => n
  | FSEntry.dir n _ => n

/-- `item` of main.go (lines 110-113): relative path and line count of
one scanned file. -/
structure item where
  path : String
  sloc : Nat
deriving DecidableEq, Repr

/-- The three accumulator variables of `walk` (main.go lines 116-118). -/
structure WalkState where
  items : List item
  total : Nat
  pathMaxLen : Nat
deriving DecidableEq, Repr

/-- The error aborting a scan: a supported file that cannot be read. -/
inductive WalkError where
  | readError (path : String)
deriving DecidableEq, Repr

/-- Go `len` of a path string: its UTF-8 byte length. -/
def pathLen (s : String) : Nat := s.utf8ByteSize

/-- `filepath.Rel root path` for a child named `name` of the entry whose
relative path is `rel` (`"."` for the root itself). -/
def childRel (rel name : String) : String :=
  if rel = "." then name else rel ++ "/" ++ name

mutual

/-- The body of the `filepath.WalkDir` callback of `walk` (main.go lines
120-151) at one entry, with `rel` the entry's path relative to the root:
skip (and for directories prune) entries whose base name is ignored,
classify regular files, and descend into directories.  `sloc` receives the
base name, which is sound because `filepath.Ext` of the full path depends
only on the final path element. -/
def walkEntry (ign : List String) (rel : String) (st : WalkState) :
    FSEntry → Except WalkError WalkState
  | FSEntry.file name content =>
    if name ∈ ign then Except.ok st
    else
      match sloc name content with
      | Except.error SlocError.unsupportedFiletype => Except.ok st
      | Except.error SlocError.readError => Except.error (WalkError.readError rel)
      | Except.ok lines =>
        Except.ok
          { items := st.items ++ [{ path := rel, sloc := lines }],
            total := st.total + lines,
            pathMaxLen :=
              if pathLen rel > st.pathMaxLen then pathLen rel else st.pathMaxLen }
  | FSEntry.dir name entries =>
    if name ∈ ign then Except.ok st
    else walkEntries ign rel st entries

/-- `filepath.WalkDir`'s in-order visit of a directory's entries; the
first error aborts the remaining visits. -/
def walkEntries (ign : List String) (rel : String) (st : WalkState) :
    List FSEntry → Except WalkError WalkState
  | [] => Except.ok st
  | e :: es =>
    match walkEntry ign (childRel rel e.name) st e with
    | Except.error err => Except.error err
    | Except.ok st2 => walkEntries ign rel st2 es

end

/-- `walk` of main.go (lines 115-158): run the traversal from the root
(whose relative path is `"."`) and return the accumulated items, total and
maximum path length, zeroing all three when the traversal errored. -/
def walk (ign : List String) (root : FSEntry) :
    List item × Nat × Nat × Option WalkError :=
  match walkEntry ign "." { items := [], total := 0, pathMaxLen := 0 } root with
  | Except.error err => ([], 0, 0, Option.some err)
  | Except.ok st => (st.items, st.total, st.pathMaxLen, Option.none)

/-! ## Basic lemmas about the string primitives -/

theorem data_ne_nil (s : String) (h : s ≠ "") : s.data ≠ [] := by
  intro hd
  apply h
  cases s with
  | mk data =>
    cases hd
    rfl

theorem hasPrefixL_drop (pre : List Char) :
    ∀ s : List Char, hasPrefixL s pre = true → s = pre ++ s.drop pre.length := by
  induction pre with
  | nil => intro s _; simp
  | cons d ds ih =>
    intro s h
    cases s with
    | nil => simp [hasPrefixL] at h
    | cons c cs =>
      simp only [hasPrefixL, Bool.and_eq_true, beq_iff_eq] at h
      obtain ⟨rfl, h2⟩ := h
      simpa using ih cs h2

theorem hasPrefixL_append (pre t : List Char) : hasPrefixL (pre ++ t) pre = true := by
  induction pre with
  | nil => cases t <;> rfl
  | cons d ds ih => simpa [hasPrefixL] using ih

theorem splitFirst_append (n : List Char) :
    ∀ s b a : List Char, splitFirst n s = Option.some (b, a) → s = b ++ n ++ a := by
  intro s
  induction s with
  | nil =>
    intro b a h
    by_cases hn : n.isEmpty
    · simp only [splitFirst, hn, if_pos] at h
      obtain ⟨rfl, rfl⟩ := Prod.mk.injEq .. ▸ Option.some.inj h
      simp [List.isEmpty_iff.mp hn]
    · simp [splitFirst, hn] at h
  | cons c cs ih =>
    intro b a h
    by_cases hp : hasPrefixL (c :: cs) n = true
    · simp only [splitFirst, hp, if_pos] at h
      obtain ⟨rfl, rfl⟩ := Prod.mk.injEq .. ▸ Option.some.inj h
      simpa using hasPrefixL_drop n (c :: cs) hp
    · simp only [splitFirst, hp] at h
      rw [if_neg (by simp [hp])] at h
      cases hs : splitFirst n cs with
      | none => rw [hs] at h; exact absurd h (by simp)
      | some p =>
        obtain ⟨b0, a0⟩ := p
        rw [hs] at h
        simp only [Option.some.injEq, Prod.mk.injEq] at h
        obtain ⟨rfl, rfl⟩ := h
        have := ih b0 a0 hs
        simp [this]

theorem splitFirst_leftmost (n : List Char) :
    ∀ s b a b2 a2 : List Char, splitFirst n s = Option.some (b, a) →
      s = b2 ++ n ++ a2 → b.length ≤ b2.length := by
  intro s
  induction s with
  | nil =>
    intro b a b2 a2 h hdec
    by_cases hn : n.isEmpty
    · simp only [splitFirst, hn, if_pos] at h
      obtain ⟨rfl, rfl⟩ := Prod.mk.injEq .. ▸ Option.some.inj h
      simp
    · simp [splitFirst, hn] at h
  | cons c cs ih =>
    intro b a b2 a2 h hdec
    by_cases hp : hasPrefixL (c :: cs) n = true
    · simp only [splitFirst, hp, if_pos] at h
      obtain ⟨rfl, rfl⟩ := Prod.mk.injEq .. ▸ Option.some.inj h
      simp
    · cases b2 with
      | nil =>
        exfalso
        simp only [List.nil_append] at hdec
        rw [hdec] at hp
        exact hp (hasPrefixL_append n a2)
      | cons c2 b2t =>
        simp only [List.cons_append, List.cons.injEq] at hdec
        obtain ⟨rfl, hdec2⟩ := hdec
        simp only [splitFirst, hp] at h
        rw [if_neg (by simp [hp])] at h
        cases hs : splitFirst n cs with
        | none => rw [hs] at h; exact absurd h (by simp)
        | some p =>
          obtain ⟨b0, a0⟩ := p
          rw [hs] at h
          simp only [Option.some.injEq, Prod.mk.injEq] at h
          obtain ⟨rfl, rfl⟩ := h
          have := ih b0 a0 b2t a2 hs hdec2
          simpa using this

theorem splitFirst_nil (n : List Char) (h : n ≠ []) : splitFirst n [] = Option.none := by
  simp [splitFirst, List.isEmpty_iff, h]

theorem splitFirst_self_append (n m : List Char) (h : n ≠ []) :
    splitFirst n (n ++ m) = Option.some ([], m) := by
  cases n with
  | nil => exact absurd rfl h
  | cons d ds =>
    have hp : hasPrefixL (d :: (ds ++ m)) (d :: ds) = true := by
      simpa using hasPrefixL_append (d :: ds) m
    show splitFirst (d :: ds) (d :: (ds ++ m)) = Option.some ([], m)
    simp only [splitFirst]
    rw [if_pos hp]
    simp [List.drop_left]

theorem splitFirst_allspace (n s : List Char) (hs : ∀ c ∈ s, isSpaceGo c = true)
    (hn : ∃ c ∈ n, isSpaceGo c = false) : splitFirst n s = Option.none := by
  cases h : splitFirst n s with
  | none => rfl
  | some p =>
    exfalso
    obtain ⟨b, a⟩ := p
    have hd := splitFirst_append n s b a h
    obtain ⟨c, hc, hcs⟩ := hn
    have hmem : c ∈ s := by rw [hd]; simp [hc]
    have := hs c hmem
    rw [this] at hcs
    exact Bool.noConfusion hcs

/-! ## Lemmas about block stripping -/

theorem length_lt_of_splits {st en s b r m a : List Char} (hst : st ≠ [])
    (h1 : splitFirst st s = Option.some (b, r))
    (h2 : splitFirst en r = Option.some (m, a)) : a.length < s.length := by
  have e1 := splitFirst_append st s b r h1
  have e2 := splitFirst_append en r m a h2
  have hl : 0 < st.length := List.length_pos.mpr hst
  subst e2
  subst e1
  simp only [List.length_append]
  omega

theorem stripBlocksAux_succ (fuel : Nat) (st en s : List Char) :
    stripBlocksAux (fuel + 1) st en s =
      match splitFirst st s with
      | Option.none => s
      | Option.some (before, rest) =>
        match splitFirst en rest with
        | Option.none => s
        | Option.some (_, after) => before ++ stripBlocksAux fuel st en after := rfl

theorem stripBlocksAux_congr (st en : List Char) (hst : st ≠ []) :
    ∀ f1 f2 : Nat, ∀ s : List Char, s.length < f1 → s.length < f2 →
      stripBlocksAux f1 st en s = stripBlocksAux f2 st en s := by
  intro f1
  induction f1 with
  | zero => intro f2 s h1 _; exact absurd h1 (by omega)
  | succ k ih =>
    intro f2 s h1 h2
    cases f2 with
    | zero => exact absurd h2 (by omega)
    | succ l =>
      cases hs1 : splitFirst st s with
      | none => simp only [stripBlocksAux_succ, hs1]
      | some p =>
        obtain ⟨b, r⟩ := p
        cases hs2 : splitFirst en r with
        | none => simp only [stripBlocksAux_succ, hs1, hs2]
        | some q =>
          obtain ⟨m, a⟩ := q
          have hal : a.length < s.length := length_lt_of_splits hst hs1 hs2
          simp only [stripBlocksAux_succ, hs1, hs2]
          rw [ih l a (by omega) (by omega)]

theorem stripBlocks_step {st en s b r m a : List Char} (hst : st ≠ [])
    (h1 : splitFirst st s = Option.some (b, r))
    (h2 : splitFirst en r = Option.some (m, a)) :
    stripBlocks st en s = b ++ stripBlocks st en a := by
  have hal : a.length < s.length := length_lt_of_splits hst h1 h2
  show stripBlocksAux (s.length + 1) st en s = b ++ stripBlocksAux (a.length + 1) st en a
  rw [stripBlocksAux_succ]
  simp only [h1, h2]
  rw [stripBlocksAux_congr st en hst s.length (a.length + 1) a (by omega) (by omega)]

theorem stripBlocks_of_start_none {st en s : List Char}
    (h : splitFirst st s = Option.none) : stripBlocks st en s = s := by
  show stripBlocksAux (s.length + 1) st en s = s
  rw [stripBlocksAux_succ]
  simp only [h]

theorem stripBlocks_of_end_none {st en s b r : List Char}
    (h1 : splitFirst st s = Option.some (b, r))
    (h2 : splitFirst en r = Option.none) : stripBlocks st en s = s := by
  show stripBlocksAux (s.length + 1) st en s = s
  rw [stripBlocksAux_succ]
  simp only [h1, h2]

/-! ## Lemmas about line splitting and counting -/

theorem string_eq_empty_iff (s : String) : s = "" ↔ s.data = [] := by
  constructor
  · intro h; subst h; rfl
  · intro h
    cases s with
    | mk data => cases h; rfl

theorem splitOnChar_ne_nil (sep : Char) (l : List Char) : splitOnChar sep l ≠ [] := by
  cases l with
  | nil => simp [splitOnChar]
  | cons c rest =>
    simp only [splitOnChar]
    by_cases h : c = sep
    · simp [h]
    · rw [if_neg h]
      cases splitOnChar sep rest <;> simp

theorem splitOnChar_no_sep (sep : Char) :
    ∀ l : List Char, sep ∉ l → splitOnChar sep l = [l] := by
  intro l
  induction l with
  | nil => intro _; rfl
  | cons c rest ih =>
    intro h
    have hc : ¬ c = sep := fun hc => h (hc ▸ List.mem_cons_self c rest)
    have hrest : sep ∉ rest := fun hr => h (List.mem_cons_of_mem c hr)
    have hstep : splitOnChar sep (c :: rest) =
        match splitOnChar sep rest with
        | [] => [[c]]
        | hh :: t => (c :: hh) :: t := by
      simp only [splitOnChar]
      rw [if_neg hc]
    rw [hstep, ih hrest]

theorem splitOnChar_append (sep : Char) :
    ∀ l r : List Char, sep ∉ l →
      splitOnChar sep (l ++ sep :: r) = l :: splitOnChar sep r := by
  intro l
  induction l with
  | nil => intro r _; simp [splitOnChar]
  | cons c rest ih =>
    intro r h
    have hc : ¬ c = sep := fun hc => h (hc ▸ List.mem_cons_self c rest)
    have hrest : sep ∉ rest := fun hr => h (List.mem_cons_of_mem c hr)
    have hstep : splitOnChar sep ((c :: rest) ++ sep :: r) =
        match splitOnChar sep (rest ++ sep :: r) with
        | [] => [[c]]
        | hh :: t => (c :: hh) :: t := by
      simp only [List.cons_append, splitOnChar]
      rw [if_neg hc]
      exact rfl
    rw [hstep, ih r hrest]

theorem mem_of_mem_splitOnChar (sep : Char) :
    ∀ s p : List Char, p ∈ splitOnChar sep s → ∀ x ∈ p, x ∈ s := by
  intro s
  induction s with
  | nil =>
    intro p hp x hx
    simp [splitOnChar] at hp
    subst hp
    simp at hx
  | cons c rest ih =>
    intro p hp x hx
    simp only [splitOnChar] at hp
    by_cases h : c = sep
    · rw [if_pos h] at hp
      rcases List.mem_cons.mp hp with h1 | h1
      · subst h1; simp at hx
      · exact List.mem_cons_of_mem c (ih p h1 x hx)
    · rw [if_neg h] at hp
      cases hs : splitOnChar sep rest with
      | nil => exact absurd hs (splitOnChar_ne_nil sep rest)
      | cons ph pt =>
        rw [hs] at hp
        rcases List.mem_cons.mp hp with h1 | h1
        · subst h1
          rcases List.mem_cons.mp hx with h2 | h2
          · subst h2; exact List.mem_cons_self x rest
          · have : ph ∈ splitOnChar sep rest := hs ▸ List.mem_cons_self ph pt
            exact List.mem_cons_of_mem c (ih ph this x h2)
        · have : p ∈ splitOnChar sep rest := hs ▸ List.mem_cons_of_mem ph h1
          exact List.mem_cons_of_mem c (ih p this x hx)

theorem trimSpace_allspace (l : List Char) (h : ∀ c ∈ l, isSpaceGo c = true) :
    trimSpace l = [] := by
  have h1 : l.dropWhile isSpaceGo = [] := List.dropWhile_eq_nil_iff.mpr h
  simp [trimSpace, h1]

theorem significantL_allspace (inl l : List Char) (h : ∀ c ∈ l, isSpaceGo c = true) :
    significantL inl l = false := by
  simp [significantL, trimSpace_allspace l h]

theorem slocLines_foldl (inl : List Char) :
    ∀ (lines : List (List Char)) (acc : Nat),
      lines.foldl (fun total line => if significantL inl line then total + 1 else total) acc =
        acc + lines.countP (significantL inl) := by
  intro lines
  induction lines with
  | nil => intro acc; simp
  | cons l ls ih =>
    intro acc
    simp only [List.foldl_cons, List.countP_cons]
    by_cases h : significantL inl l = true
    · rw [if_pos h, ih, if_pos h]; omega
    · rw [if_neg h, ih, if_neg h]; omega

theorem slocLines_eq_countP (inl : List Char) (lines : List (List Char)) :
    slocLines inl lines = lines.countP (significantL inl) := by
  simpa using slocLines_foldl inl lines 0

theorem significantL_eq_decide (inlStr : String) (line : List Char) :
    significantL inlStr.data line =
      decide (trimSpace line ≠ [] ∧
        (inlStr = "" ∨ ¬ hasPrefixL (trimSpace line) inlStr.data = true)) := by
  by_cases h1 : trimSpace line = []
  · simp [significantL, h1]
  · by_cases h2 : inlStr = ""
    · have : inlStr.data = [] := (string_eq_empty_iff inlStr).mp h2
      simp [significantL, h1, h2, this, List.isEmpty_iff]
    · have hne : inlStr.data ≠ [] := fun hc => h2 ((string_eq_empty_iff inlStr).mpr hc)
      by_cases h3 : hasPrefixL (trimSpace line) inlStr.data = true
      · simp [significantL, h1, h2, h3, List.isEmpty_iff, hne]
      · simp [significantL, h1, h2, h3, List.isEmpty_iff, hne]

/-! ## Claim C1 -/

/-- C1: for every file text and every language spec, after block-comment
stripping the classifier counts exactly those physical lines (split on
newline) whose whitespace-trimmed form is non-empty and, when the language
has a non-empty inline-comment marker, does not start with that marker;
`sloc` returns this count. -/
theorem sloc_count_spec (path : String) (content : String) (info : langInfo)
    (h : List.lookup (ext path) supported = Option.some info) :
    sloc path (Option.some content) = Except.ok
      ((splitOnChar '\n' (stripPhase info content.data)).countP
        (fun line => decide (trimSpace line ≠ [] ∧
          (info.inline = "" ∨ ¬ hasPrefixL (trimSpace line) info.inline.data = true)))) := by
  have hfun :
      (fun line => decide (trimSpace line ≠ [] ∧
        (info.inline = "" ∨ ¬ hasPrefixL (trimSpace line) info.inline.data = true))) =
        significantL info.inline.data :=
    funext fun line => (significantL_eq_decide info.inline line).symm
  simp only [sloc, h, slocContent, slocLines_eq_countP, hfun]

theorem sloc_count_spec_witness :
    sloc "x.go" (Option.some "a\n  // b\n\nc /* d */ e\n") = Except.ok
      ((splitOnChar '\n'
          (stripPhase { inline := "//", start := "/*", endStr := "*/" }
            "a\n  // b\n\nc /* d */ e\n".data)).countP
        (fun line => decide (trimSpace line ≠ [] ∧
          (("//" : String) = "" ∨
            ¬ hasPrefixL (trimSpace line) ("//" : String).data = true)))) :=
  sloc_count_spec "x.go" "a\n  // b\n\nc /* d */ e\n"
    { inline := "//", start := "/*", endStr := "*/" } rfl

/-! ## Claim C2 -/

/-- C2: for every language spec with both `blockStart` and `blockEnd`
non-empty, block stripping removes every non-overlapping substring that
starts with the literal `blockStart` and ends at the nearest following
literal `blockEnd` (leftmost match, non-greedy, literal delimiters):
whenever the text decomposes around a first `blockStart` and a nearest
following `blockEnd`, stripping removes exactly that segment and continues
after it; when either delimiter is empty, no block stripping occurs. -/
theorem stripBlocks_block_removal
    (st en s before mid after rest : List Char)
    (hst : st ≠ []) (hen : en ≠ [])
    (h1 : splitFirst st s = Option.some (before, rest))
    (h2 : splitFirst en rest = Option.some (mid, after)) :
    s = before ++ st ++ mid ++ en ++ after ∧
    (∀ b a : List Char, s = b ++ st ++ a → before.length ≤ b.length) ∧
    (∀ b a : List Char, rest = b ++ en ++ a → mid.length ≤ b.length) ∧
    stripBlocks st en s = before ++ stripBlocks st en after ∧
    (∀ (info : langInfo) (c : List Char),
      info.start = "" ∨ info.endStr = "" → stripPhase info c = c) := by
  refine ⟨?_, ?_, ?_, ?_, ?_⟩
  · have e1 := splitFirst_append st s before rest h1
    have e2 := splitFirst_append en rest mid after h2
    rw [e1, e2]
    simp [List.append_assoc]
  · intro b a hdec
    exact splitFirst_leftmost st s before rest b a h1 hdec
  · intro b a hdec
    exact splitFirst_leftmost en rest mid after b a h2 hdec
  · exact stripBlocks_step hst h1 h2
  · intro info c hinfo
    rcases hinfo with h | h <;> simp [stripPhase, h]

theorem stripBlocks_block_removal_witness :
    "x/*a*/y".data = "x".data ++ "/*".data ++ "a".data ++ "*/".data ++ "y".data ∧
    (∀ b a : List Char,
      "x/*a*/y".data = b ++ "/*".data ++ a → ("x".data).length ≤ b.length) ∧
    (∀ b a : List Char,
      "a*/y".data = b ++ "*/".data ++ a → ("a".data).length ≤ b.length) ∧
    stripBlocks "/*".data "*/".data "x/*a*/y".data =
      "x".data ++ stripBlocks "/*".data "*/".data "y".data ∧
    (∀ (info : langInfo) (c : List Char),
      info.start = "" ∨ info.endStr = "" → stripPhase info c = c) :=
  stripBlocks_block_removal "/*".data "*/".data "x/*a*/y".data
    "x".data "a".data "y".data "a*/y".data
    (by decide) (by decide) (by decide) (by decide)

/-! ## Zero-count lemmas for the classifier -/

theorem significantL_nil (inl : List Char) : significantL inl [] = false := rfl

theorem supported_start_nonspace :
    ∀ p ∈ supported, p.2.start ≠ "" →
      p.2.start.data.any (fun c => !isSpaceGo c) = true := by decide

theorem slocContent_nil (info : langInfo) : slocContent info [] = 0 := by
  have hstrip : stripPhase info [] = [] := by
    by_cases h : info.start ≠ "" ∧ info.endStr ≠ ""
    · simp only [stripPhase, if_pos h]
      exact stripBlocks_of_start_none (splitFirst_nil _ (data_ne_nil _ h.1))
    · simp [stripPhase, h]
  rw [slocContent, hstrip]
  rfl

theorem slocContent_allspace (info : langInfo)
    (hside : info.start ≠ "" → info.endStr ≠ "" →
      info.start.data.any (fun c => !isSpaceGo c) = true)
    (s : List Char) (hs : ∀ c ∈ s, isSpaceGo c = true) : slocContent info s = 0 := by
  have hstrip : stripPhase info s = s := by
    by_cases h : info.start ≠ "" ∧ info.endStr ≠ ""
    · simp only [stripPhase, if_pos h]
      apply stripBlocks_of_start_none
      apply splitFirst_allspace _ _ hs
      have := hside h.1 h.2
      simpa [List.any_eq_true, Bool.not_eq_true'] using this
    · simp [stripPhase, h]
  rw [slocContent, hstrip, slocLines_eq_countP]
  apply List.countP_eq_zero.mpr
  intro line hline
  have hall : ∀ c ∈ line, isSpaceGo c = true :=
    fun c hc => hs c (mem_of_mem_splitOnChar '\n' s line hline c hc)
  simp [significantL_allspace info.inline.data line hall]

theorem slocContent_onlyblock (info : langInfo) (m mid : List Char)
    (hst : info.start ≠ "") (hen : info.endStr ≠ "")
    (hm : splitFirst info.endStr.data m = Option.some (mid, [])) :
    slocContent info (info.start.data ++ m) = 0 := by
  have h1 : splitFirst info.start.data (info.start.data ++ m) = Option.some ([], m) :=
    splitFirst_self_append _ m (data_ne_nil _ hst)
  have hstrip : stripPhase info (info.start.data ++ m) = [] := by
    simp only [stripPhase, if_pos (And.intro hst hen)]
    rw [stripBlocks_step (data_ne_nil _ hst) h1 hm]
    rw [stripBlocks_of_start_none (splitFirst_nil _ (data_ne_nil _ hst))]
    rfl
  rw [slocContent, hstrip]
  rfl

/-! ## Claim C6 -/

/-- C6: for every supported language, the classifier returns 0 for an
empty file, for a file containing only whitespace and blank lines, and for
a file whose entire content is a single block-comment region (the block
opener at the very start, its matching closer at the very end). -/
theorem sloc_zero_cases (k : String) (info : langInfo) (s : List Char)
    (hp : (k, info) ∈ supported) (hs : ∀ c ∈ s, isSpaceGo c = true) :
    slocContent info [] = 0 ∧ slocContent info s = 0 ∧
    (∀ m mid : List Char, info.start ≠ "" → info.endStr ≠ "" →
      splitFirst info.endStr.data m = Option.some (mid, []) →
      slocContent info (info.start.data ++ m) = 0) := by
  refine ⟨slocContent_nil info, ?_, ?_⟩
  · exact slocContent_allspace info
      (fun h1 _ => supported_start_nonspace (k, info) hp h1) s hs
  · intro m mid hst hen hm
    exact slocContent_onlyblock info m mid hst hen hm

theorem sloc_zero_cases_witness :
    slocContent { inline := "//", start := "/*", endStr := "*/" } [] = 0 ∧
    slocContent { inline := "//", start := "/*", endStr := "*/" } "  \n\t \n ".data = 0 ∧
    (∀ m mid : List Char,
      ({ inline := "//", start := "/*", endStr := "*/" } : langInfo).start ≠ "" →
      ({ inline := "//", start := "/*", endStr := "*/" } : langInfo).endStr ≠ "" →
      splitFirst ({ inline := "//", start := "/*", endStr := "*/" } : langInfo).endStr.data m =
        Option.some (mid, []) →
      slocContent { inline := "//", start := "/*", endStr := "*/" }
        (({ inline := "//", start := "/*", endStr := "*/" } : langInfo).start.data ++ m) = 0) :=
  sloc_zero_cases ".go" { inline := "//", start := "/*", endStr := "*/" } "  \n\t \n ".data
    (by decide) (by decide)

/-! ## Claim C7 -/

/-- C7: for every language with block-comment support, a file consisting
of one significant line, then a block comment spanning the next three
physical lines, then one more significant line, yields a count of 2.  The
block is the leftmost `start` occurrence, closed by the nearest following
`endStr` (the `splitFirst` hypotheses), and contains two newlines, so it
spans three physical lines. -/
theorem sloc_block_span_two (k : String) (info : langInfo)
    (l1 l2 mid : List Char)
    (hp : (k, info) ∈ supported)
    (hst : info.start ≠ "") (hen : info.endStr ≠ "")
    (h1 : splitFirst info.start.data
        (l1 ++ '\n' :: (info.start.data ++ mid ++ info.endStr.data ++ '\n' :: l2)) =
      Option.some (l1 ++ ['\n'], mid ++ info.endStr.data ++ '\n' :: l2))
    (h2 : splitFirst info.endStr.data (mid ++ info.endStr.data ++ '\n' :: l2) =
      Option.some (mid, '\n' :: l2))
    (h3 : splitFirst info.start.data ('\n' :: l2) = Option.none)
    (hl1 : '\n' ∉ l1) (hl2 : '\n' ∉ l2)
    (hmid : mid.count '\n' = 2)
    (hsig1 : significantL info.inline.data l1 = true)
    (hsig2 : significantL info.inline.data l2 = true) :
    slocContent info
      (l1 ++ '\n' :: (info.start.data ++ mid ++ info.endStr.data ++ '\n' :: l2)) = 2 := by
  have hstna : info.start.data ≠ [] := data_ne_nil _ hst
  have hstrip : stripPhase info
      (l1 ++ '\n' :: (info.start.data ++ mid ++ info.endStr.data ++ '\n' :: l2)) =
      l1 ++ '\n' :: '\n' :: l2 := by
    simp only [stripPhase, if_pos (And.intro hst hen)]
    rw [stripBlocks_step hstna h1 h2, stripBlocks_of_start_none h3]
    simp
  rw [slocContent, hstrip]
  rw [show l1 ++ '\n' :: '\n' :: l2 = l1 ++ '\n' :: ('\n' :: l2) from rfl]
  rw [splitOnChar_append '\n' l1 ('\n' :: l2) hl1]
  have hone : splitOnChar '\n' ('\n' :: l2) = [] :: splitOnChar '\n' l2 := by
    simp [splitOnChar]
  rw [hone, splitOnChar_no_sep '\n' l2 hl2, slocLines_eq_countP]
  simp [List.countP_cons, hsig1, hsig2, significantL_nil]

theorem sloc_block_span_two_witness :
    slocContent { inline := "//", start := "/*", endStr := "*/" }
      ("a".data ++ '\n' ::
        (({ inline := "//", start := "/*", endStr := "*/" } : langInfo).start.data ++
          "\n\n".data ++
          ({ inline := "//", start := "/*", endStr := "*/" } : langInfo).endStr.data ++
          '\n' :: "b".data)) = 2 :=
  sloc_block_span_two ".go" { inline := "//", start := "/*", endStr := "*/" }
    "a".data "b".data "\n\n".data
    (by decide) (by decide) (by decide) (by decide) (by decide) (by decide)
    (by decide) (by decide) (by decide) (by decide) (by decide)

/-! ## Claim C9 -/

/-- C9: for every language with block-comment support, an occurrence of
`blockStart` with no following `blockEnd` in the file is not removed by
block stripping; the delimiter and all text after it remain, and the lines
are counted by the normal blank-line and inline-marker rules on the
unmodified text. -/
theorem sloc_dangling_block_kept (info : langInfo) (s b r : List Char)
    (hst : info.start ≠ "") (hen : info.endStr ≠ "")
    (h1 : splitFirst info.start.data s = Option.some (b, r))
    (h2 : splitFirst info.endStr.data r = Option.none) :
    stripPhase info s = s ∧
    slocContent info s = slocLines info.inline.data (splitOnChar '\n' s) := by
  have hphase : stripPhase info s = s := by
    simp only [stripPhase, if_pos (And.intro hst hen)]
    exact stripBlocks_of_end_none h1 h2
  exact ⟨hphase, by rw [slocContent, hphase]⟩

theorem sloc_dangling_block_kept_witness :
    stripPhase { inline := "//", start := "/*", endStr := "*/" } "a /* b\nc".data =
      "a /* b\nc".data ∧
    slocContent { inline := "//", start := "/*", endStr := "*/" } "a /* b\nc".data =
      slocLines ("//".data) (splitOnChar '\n' "a /* b\nc".data) :=
  sloc_dangling_block_kept { inline := "//", start := "/*", endStr := "*/" }
    "a /* b\nc".data "a ".data " b\nc".data
    (by decide) (by decide) (by decide) (by decide)

/-! ## Lemmas about the walker -/

theorem walkEntry_ignored (ign : List String) (rel : String) (st : WalkState)
    (e : FSEntry) (h : e.name ∈ ign) : walkEntry ign rel st e = Except.ok st := by
  cases e with
  | file n c =>
    simp only [walkEntry]
    rw [if_pos (by simpa [FSEntry.name] using h)]
  | dir n es =>
    simp only [walkEntry]
    rw [if_pos (by simpa [FSEntry.name] using h)]

theorem walkEntries_append (ign : List String) (rel : String) :
    ∀ (xs ys : List FSEntry) (st : WalkState),
      walkEntries ign rel st (xs ++ ys) =
        match walkEntries ign rel st xs with
        | Except.error err => Except.error err
        | Except.ok st2 => walkEntries ign rel st2 ys := by
  intro xs
  induction xs with
  | nil => intro ys st; simp only [List.nil_append, walkEntries]
  | cons e es ih =>
    intro ys st
    simp only [List.cons_append, walkEntries]
    cases hw : walkEntry ign (childRel rel e.name) st e with
    | error err => simp [hw]
    | ok st2 => simp only [hw]; exact ih ys st2

/-- The sum of the per-file counts of a result list. -/
def sumSloc (items : List item) : Nat := (items.map item.sloc).sum

/-- The maximum relative-path length over a result list, `0` when empty. -/
def maxPathLength (items : List item) : Nat :=
  (items.map (fun i => pathLen i.path)).foldr Nat.max 0

/-- The invariant tying the running `total` and `pathMaxLen` accumulators
to the accumulated `items`. -/
def Inv (st : WalkState) : Prop :=
  st.total = sumSloc st.items ∧ st.pathMaxLen = maxPathLength st.items

theorem foldr_max_init (l : List Nat) (a : Nat) :
    l.foldr Nat.max a = Nat.max (l.foldr Nat.max 0) a := by
  induction l with
  | nil => simp
  | cons x xs ih => simp [List.foldr_cons, ih, Nat.max_assoc]

theorem sumSloc_append_one (items : List item) (it : item) :
    sumSloc (items ++ [it]) = sumSloc items + it.sloc := by
  simp [sumSloc]

theorem maxPathLength_append_one (items : List item) (it : item) :
    maxPathLength (items ++ [it]) =
      Nat.max (maxPathLength items) (pathLen it.path) := by
  simp only [maxPathLength, List.map_append, List.foldr_append, List.map_cons,
    List.map_nil, List.foldr_cons, List.foldr_nil]
  rw [foldr_max_init]
  simp [Nat.max_comm]

theorem if_gt_eq_max (m n : Nat) : (if n > m then n else m) = Nat.max m n := by
  have hmax : Nat.max m n = m ⊔ n := rfl
  rw [hmax]
  split
  · exact (sup_eq_right.mpr (by omega)).symm
  · exact (sup_eq_left.mpr (by omega)).symm

mutual

theorem walkEntry_inv (ign : List String) (rel : String) (st : WalkState)
    (e : FSEntry) (st2 : WalkState) (hInv : Inv st)
    (h : walkEntry ign rel st e = Except.ok st2) : Inv st2 := by
  cases e with
  | file n c =>
    simp only [walkEntry] at h
    by_cases hn : n ∈ ign
    · rw [if_pos hn] at h
      injection h with h2
      exact h2 ▸ hInv
    · rw [if_neg hn] at h
      cases hs : sloc n c with
      | error err =>
        cases err with
        | unsupportedFiletype =>
          rw [hs] at h
          injection h with h2
          exact h2 ▸ hInv
        | readError => rw [hs] at h; exact absurd h (by simp)
      | ok lines =>
        rw [hs] at h
        injection h with h2
        subst h2
        constructor
        · show st.total + lines = sumSloc (st.items ++ [{ path := rel, sloc := lines }])
          rw [sumSloc_append_one, hInv.1]
        · show (if pathLen rel > st.pathMaxLen then pathLen rel else st.pathMaxLen) =
            maxPathLength (st.items ++ [{ path := rel, sloc := lines }])
          rw [maxPathLength_append_one, hInv.2, if_gt_eq_max]
  | dir n es =>
    simp only [walkEntry] at h
    by_cases hn : n ∈ ign
    · rw [if_pos hn] at h
      injection h with h2
      exact h2 ▸ hInv
    · rw [if_neg hn] at h
      exact walkEntries_inv ign rel st es st2 hInv h

theorem walkEntries_inv (ign : List String) (rel : String) (st : WalkState)
    (es : List FSEntry) (st2 : WalkState) (hInv : Inv st)
    (h : walkEntries ign rel st es = Except.ok st2) : Inv st2 := by
  cases es with
  | nil =>
    simp only [walkEntries] at h
    injection h with h2
    exact h2 ▸ hInv
  | cons e es2 =>
    simp only [walkEntries] at h
    cases hw : walkEntry ign (childRel rel e.name) st e with
    | error err => rw [hw] at h; exact absurd h (by simp)
    | ok stm =>
      rw [hw] at h
      exact walkEntries_inv ign rel stm es2 st2
        (walkEntry_inv ign (childRel rel e.name) st e stm hInv hw) h

end

/-! ## Claim C4 -/

/-- C4: after every successful scan, the returned `total` equals the sum
of `sloc` over all items in the report, and the returned `pathMaxLen`
equals the maximum relative-path length over all items, or 0 when `items`
is empty. -/
theorem walk_total_and_maxPathLen_inv (ign : List String) (root : FSEntry)
    (items : List item) (total maxLen : Nat)
    (h : walk ign root = (items, total, maxLen, Option.none)) :
    total = sumSloc items ∧ maxLen = maxPathLength items := by
  unfold walk at h
  cases hw : walkEntry ign "." { items := [], total := 0, pathMaxLen := 0 } root with
  | error err =>
    rw [hw] at h
    simp at h
  | ok st =>
    rw [hw] at h
    have hInv : Inv st :=
      walkEntry_inv ign "." { items := [], total := 0, pathMaxLen := 0 } root st
        ⟨rfl, rfl⟩ hw
    simp only [Prod.mk.injEq] at h
    obtain ⟨h1, h2, h3, -⟩ := h
    rw [← h1, ← h2, ← h3]
    exact hInv

theorem walk_total_and_maxPathLen_inv_witness :
    (2 : Nat) = sumSloc [{ path := "a.go", sloc := 1 }, { path := "sub/b.js", sloc := 1 }] ∧
    (8 : Nat) = maxPathLength
      [{ path := "a.go", sloc := 1 }, { path := "sub/b.js", sloc := 1 }] :=
  walk_total_and_maxPathLen_inv ignore
    (FSEntry.dir "r"
      [FSEntry.file "a.go" (Option.some "x := 1\n"),
       FSEntry.dir ".git" [FSEntry.file "b.go" Option.none],
       FSEntry.file "c.pdf" (Option.some "zzz"),
       FSEntry.dir "sub" [FSEntry.file "b.js" (Option.some "// c\ny\n")]])
    [{ path := "a.go", sloc := 1 }, { path := "sub/b.js", sloc := 1 }] 2 8
    (by simp only [walk, walkEntry, walkEntries]; rfl)

/-! ## Claim C3 -/

/-- C3: during a scan, a regular file whose extension is not in the
supported table is silently skipped (the state is returned unchanged: it
contributes nothing to items, total or pathMaxLen, and is not an error),
while a read failure of a supported file aborts the entire remaining scan
with an error, whatever follows it. -/
theorem walk_unsupported_skip_read_abort (ign : List String) (rel : String)
    (st : WalkState) (n1 n2 : String) (c1 : Option String) (info : langInfo)
    (es : List FSEntry)
    (h1i : n1 ∉ ign) (h1 : List.lookup (ext n1) supported = Option.none)
    (h2i : n2 ∉ ign) (h2 : List.lookup (ext n2) supported = Option.some info) :
    walkEntry ign rel st (FSEntry.file n1 c1) = Except.ok st ∧
    walkEntries ign rel st
        (FSEntry.file n1 c1 :: FSEntry.file n2 Option.none :: es) =
      Except.error (WalkError.readError (childRel rel n2)) := by
  have ha : ∀ r : String, walkEntry ign r st (FSEntry.file n1 c1) = Except.ok st := by
    intro r
    simp only [walkEntry]
    rw [if_neg h1i]
    simp [sloc, h1]
  have hb : ∀ r : String,
      walkEntry ign r st (FSEntry.file n2 Option.none) =
        Except.error (WalkError.readError r) := by
    intro r
    simp only [walkEntry]
    rw [if_neg h2i]
    simp [sloc, h2]
  refine ⟨ha rel, ?_⟩
  simp only [walkEntries, FSEntry.name]
  rw [ha (childRel rel n1)]
  simp only [walkEntries, FSEntry.name]
  rw [hb (childRel rel n2)]

theorem walk_unsupported_skip_read_abort_witness :
    walkEntry ignore "." { items := [], total := 0, pathMaxLen := 0 }
        (FSEntry.file "a.pdf" (Option.some "x")) =
      Except.ok { items := [], total := 0, pathMaxLen := 0 } ∧
    walkEntries ignore "." { items := [], total := 0, pathMaxLen := 0 }
        [FSEntry.file "a.pdf" (Option.some "x"), FSEntry.file "b.go" Option.none] =
      Except.error (WalkError.readError (childRel "." "b.go")) :=
  walk_unsupported_skip_read_abort ignore "."
    { items := [], total := 0, pathMaxLen := 0 } "a.pdf" "b.go"
    (Option.some "x") { inline := "//", start := "/*", endStr := "*/" } []
    (by decide) (by decide) (by decide) (by decide)

/-! ## Claim C5 -/

/-- C5: an entry whose base name is in the ignore set is skipped entirely
(the state is returned unchanged, so for a directory the whole subtree is
pruned), and removing such an entry from a directory listing does not
change the outcome of the traversal: no file inside an ignored directory
ever appears in the result, regardless of its extension or content. -/
theorem walk_ignored_pruned (ign : List String) (rel : String) (st : WalkState)
    (e : FSEntry) (pre post : List FSEntry) (h : e.name ∈ ign) :
    walkEntry ign rel st e = Except.ok st ∧
    walkEntries ign rel st (pre ++ e :: post) = walkEntries ign rel st (pre ++ post) := by
  refine ⟨walkEntry_ignored ign rel st e h, ?_⟩
  rw [walkEntries_append, walkEntries_append]
  cases hw : walkEntries ign rel st pre with
  | error err => rfl
  | ok st2 =>
    simp only [walkEntries]
    rw [walkEntry_ignored ign (childRel rel e.name) st2 e h]

theorem walk_ignored_pruned_witness :
    walkEntry ignore "." { items := [], total := 0, pathMaxLen := 0 }
        (FSEntry.dir ".git" [FSEntry.file "x.go" (Option.some "y := 0\n")]) =
      Except.ok { items := [], total := 0, pathMaxLen := 0 } ∧
    walkEntries ignore "." { items := [], total := 0, pathMaxLen := 0 }
        ([FSEntry.file "a.go" (Option.some "p\n")] ++
          FSEntry.dir ".git" [FSEntry.file "x.go" (Option.some "y := 0\n")] ::
            [FSEntry.file "b.go" (Option.some "q\n")]) =
      walkEntries ignore "." { items := [], total := 0, pathMaxLen := 0 }
        ([FSEntry.file "a.go" (Option.some "p\n")] ++
          [FSEntry.file "b.go" (Option.some "q\n")]) :=
  walk_ignored_pruned ignore "." { items := [], total := 0, pathMaxLen := 0 }
    (FSEntry.dir ".git" [FSEntry.file "x.go" (Option.some "y := 0\n")])
    [FSEntry.file "a.go" (Option.some "p\n")]
    [FSEntry.file "b.go" (Option.some "q\n")]
    (by decide)

/-! ## Claim C8 -/

/-- C8: whenever the traversal aborts with an error, `walk` returns an
empty item list, total 0 and pathMaxLen 0 alongside the error: no
partially accumulated results are ever exposed. -/
theorem walk_error_zeroed (ign : List String) (root : FSEntry) (err : WalkError)
    (h : walkEntry ign "." { items := [], total := 0, pathMaxLen := 0 } root =
      Except.error err) :
    walk ign root = ([], 0, 0, Option.some err) := by
  unfold walk
  rw [h]

theorem walk_error_zeroed_witness :
    walk ignore (FSEntry.dir "r" [FSEntry.file "a.go" Option.none]) =
      ([], 0, 0, Option.some (WalkError.readError "a.go")) :=
  walk_error_zeroed ignore (FSEntry.dir "r" [FSEntry.file "a.go" Option.none])
    (WalkError.readError "a.go")
    (by simp only [walkEntry, walkEntries]; rfl)

/-! ## Claim C10 -/

/-- C10: the ignore check applies to the root itself: if the base name of
the root is in the ignore set, the scan descends into nothing and returns
an empty report (`items = []`, `total = 0`, `pathMaxLen = 0`) with no
error. -/
theorem walk_ignored_root (ign : List String) (root : FSEntry)
    (h : root.name ∈ ign) :
    walk ign root = ([], 0, 0, Option.none) := by
  unfold walk
  rw [walkEntry_ignored ign "." _ root h]

theorem walk_ignored_root_witness :
    walk ignore (FSEntry.dir ".git" [FSEntry.file "a.go" (Option.some "x := 1\n")]) =
      ([], 0, 0, Option.none) :=
  walk_ignored_root ignore
    (FSEntry.dir ".git" [FSEntry.file "a.go" (Option.some "x := 1\n")])
    (by decide)

end Sloc
